import Mathlib

/-!
Shallow embedding of the equilibrium-computation layer of the IO_economics
repository (market structures, price competition, auctions, game theory,
network effects), with theorems settling the spec claims about it.
Real arithmetic of the source is modelled with ℚ.
-/

namespace IOEcon

/-! ### MarketStructures (src/modules/market_structures.py) -/

/-- Result record of `MarketStructures.perfect_competition`. -/
structure PCResult where
  price : ℚ
  quantity : ℚ
  consumer_surplus : ℚ
  producer_surplus : ℚ
  total_surplus : ℚ
deriving DecidableEq

/-- Embedding of `MarketStructures.perfect_competition`: demand `P = a - bQ`,
supply `P = mc`, equilibrium `q = (a - mc)/b`, `p = mc`. -/
def perfect_competition (a b mc : ℚ) : PCResult :=
  let q_eq := (a - mc) / b
  let p_eq := mc
  let consumer_surplus := (1/2) * q_eq * (a - p_eq)
  let producer_surplus := 0
  { price := p_eq
    quantity := q_eq
    consumer_surplus := consumer_surplus
    producer_surplus := producer_surplus
    total_surplus := consumer_surplus + producer_surplus }

/-- Result record of `MarketStructures.monopoly`. -/
structure MonopolyResult where
  price : ℚ
  quantity : ℚ
  consumer_surplus : ℚ
  producer_surplus : ℚ
  total_surplus : ℚ
  deadweight_loss : ℚ
deriving DecidableEq

/-- Embedding of `MarketStructures.monopoly`: `MR = MC` gives
`q = (a - mc)/(2b)`, `p = a - b q`, deadweight loss
`0.5 * b * (q_competitive - q)^2`. -/
def monopoly (a b mc : ℚ) : MonopolyResult :=
  let q_eq := (a - mc) / (2 * b)
  let p_eq := a - b * q_eq
  let consumer_surplus := (1/2) * q_eq * (a - p_eq)
  let producer_surplus := (p_eq - mc) * q_eq
  let q_competitive := (a - mc) / b
  let deadweight_loss := (1/2) * b * (q_competitive - q_eq)^2
  { price := p_eq
    quantity := q_eq
    consumer_surplus := consumer_surplus
    producer_surplus := producer_surplus
    total_surplus := consumer_surplus + producer_surplus
    deadweight_loss := deadweight_loss }

/-! ### PriceCompetition (src/modules/price_competition.py) -/

/-- Result record of `PriceCompetition.bertrand_competition`. -/
structure BertrandResult where
  price1 : ℚ
  price2 : ℚ
  quantity1 : ℚ
  quantity2 : ℚ
  profit1 : ℚ
  profit2 : ℚ
  total_quantity : ℚ
  consumer_surplus : ℚ
  differentiation : ℚ
deriving DecidableEq

/-- Embedding of `PriceCompetition.bertrand_competition`. The source divides
by `b * (4 - gamma^2)` with no guard; a zero divisor raises in Python, which
is modelled by `none`. For any other parameters the source computes and
returns a result record (no rejection of out-of-range `gamma`). -/
def bertrand_competition (mc1 mc2 a b gamma : ℚ) : Option BertrandResult :=
  let denominator := 4 - gamma^2
  if b * denominator = 0 then none
  else
    let p1 := (2*a + 2*b*mc1 + gamma*b*mc2) / (b * denominator)
    let p2 := (2*a + 2*b*mc2 + gamma*b*mc1) / (b * denominator)
    let q1 := a - b*p1 + gamma*b*p2
    let q2 := a - b*p2 + gamma*b*p1
    some { price1 := p1
           price2 := p2
           quantity1 := q1
           quantity2 := q2
           profit1 := (p1 - mc1) * q1
           profit2 := (p2 - mc2) * q2
           total_quantity := q1 + q2
           consumer_surplus := (1/2) * b * (q1^2 + q2^2) + gamma * b * q1 * q2
           differentiation := gamma }

/-- C4: the claim says that with `mc >= a` (and `b > 0`) the market-structure
results report zero quantity and zero price. The source has no such guard:
at `a = 10, b = 1, mc = 20` perfect competition returns quantity `-10` and
price `20`, and monopoly returns quantity `-5`; the negative equilibrium
quantity is propagated unchanged. -/
theorem C4_negative_quantity_propagated :
    (perfect_competition 10 1 20).quantity = -10 ∧
    (perfect_competition 10 1 20).price = 20 ∧
    (monopoly 10 1 20).quantity = -5 := by
  refine ⟨?_, ?_, ?_⟩ <;> norm_num [perfect_competition, monopoly]

/-- C7: for all parameters with `a > mc > 0` and `b > 0`, the monopoly
quantity is half the perfect-competition quantity, and the monopoly
deadweight loss is strictly positive. -/
theorem C7_monopoly_half_competitive (a b mc : ℚ)
    (hma : mc < a) (hmc : 0 < mc) (hb : 0 < b) :
    (monopoly a b mc).quantity = (perfect_competition a b mc).quantity / 2 ∧
    0 < (monopoly a b mc).deadweight_loss := by
  have hb' : b ≠ 0 := ne_of_gt hb
  constructor
  · show (a - mc) / (2 * b) = ((a - mc) / b) / 2
    rw [div_div, mul_comm]
  · show 0 < (1/2) * b * ((a - mc) / b - (a - mc) / (2 * b))^2
    have hx : (a - mc) / b - (a - mc) / (2 * b) = (a - mc) / (2 * b) := by
      field_simp
      ring
    rw [hx]
    have hpos : 0 < (a - mc) / (2 * b) :=
      div_pos (by linarith) (by linarith)
    exact mul_pos (mul_pos (by norm_num) hb) (pow_pos hpos 2)

/-- Witness for C7 at `a = 10, b = 1, mc = 2`. -/
theorem C7_witness :
    (monopoly 10 1 2).quantity = (perfect_competition 10 1 2).quantity / 2 ∧
    0 < (monopoly 10 1 2).deadweight_loss :=
  C7_monopoly_half_competitive 10 1 2 (by norm_num) (by norm_num) (by norm_num)

/-- C5: the claim says every substitutability parameter `gamma` outside
`[0,1]` is rejected with an error. In fact at `gamma = 3` (with
`mc1 = mc2 = 10, a = 100, b = 1`) the source computes and returns a result
whose first price is `-50`; only the in-range part of the claim holds: for
`gamma ∈ [0,1]` and `b > 0` the divisor `b * (4 - gamma^2)` is nonzero, so
the computation never divides by zero. -/
theorem C5_gamma_not_rejected :
    (Option.map (fun r => r.price1) (bertrand_competition 10 10 100 1 3)
      = some (-50)) ∧
    ∀ mc1 mc2 a b gamma : ℚ, 0 < b → 0 ≤ gamma → gamma ≤ 1 →
      (bertrand_competition mc1 mc2 a b gamma).isSome := by
  constructor
  · norm_num [bertrand_competition]
  · intro mc1 mc2 a b gamma hb h0 h1
    have hgsq : gamma^2 ≤ 1 := by nlinarith
    have hden : 0 < 4 - gamma^2 := by nlinarith
    have hne : b * (4 - gamma^2) ≠ 0 := by positivity
    simp [bertrand_competition, hne]

/-- Witness for C5 at `mc1 = mc2 = 10, a = 100, b = 1, gamma = 1/2`. -/
theorem C5_witness :
    (Option.map (fun r => r.price1) (bertrand_competition 10 10 100 1 3)
      = some (-50)) ∧
    (bertrand_competition 10 10 100 1 (1/2)).isSome :=
  ⟨C5_gamma_not_rejected.1,
   C5_gamma_not_rejected.2 10 10 100 1 (1/2) (by norm_num) (by norm_num)
     (by norm_num)⟩

/-! ### NetworkEffects (src/modules/network_effects.py) -/

/-- Embedding of the time loop of `NetworkEffects.network_adoption_dynamics`.
Each period records the adoption rate, then adds new adopters: above the
threshold, `min(pop - cur, 0.1*(utility - threshold)*(pop - cur))`; below it,
`0.02*(pop - cur)`; the loop stops early once adopters reach `0.99*pop`. -/
def adoption_loop (threshold nv pop : ℚ) : ℕ → ℚ → List ℚ → (List ℚ × ℚ)
  | 0, cur, hist => (hist, cur)
  | t+1, cur, hist =>
      let rate := cur / pop
      let hist2 := hist ++ [rate]
      let util := nv * rate
      let newA := if threshold < util
        then min (pop - cur) ((util - threshold) / 10 * (pop - cur))
        else (1/50) * (pop - cur)
      let cur2 := cur + newA
      if (99/100) * pop ≤ cur2 then (hist2, cur2)
      else adoption_loop threshold nv pop t cur2 hist2

/-- Embedding of the critical-mass scan of `network_adoption_dynamics`: the
first index whose recorded rate is at least `0.5`, defaulting to the
`time_periods` parameter when no entry crosses. -/
def critical_mass_search (l : List ℚ) (dflt : ℕ) (k : ℕ) : ℕ :=
  match l with
  | [] => dflt
  | x :: xs => if (1:ℚ)/2 ≤ x then k else critical_mass_search xs dflt (k+1)

/-- Result record of `NetworkEffects.network_adoption_dynamics`. -/
structure AdoptionResult where
  adoption_history : List ℚ
  final_adoption : ℚ
  critical_mass_time : ℕ

/-- Embedding of `NetworkEffects.network_adoption_dynamics`: starts from 1%
early adopters and runs `adoption_loop` for `time_periods` periods. -/
def network_adoption_dynamics (adoption_threshold network_value
    population_size : ℚ) (time_periods : ℕ) : AdoptionResult :=
  let res := adoption_loop adoption_threshold network_value population_size
    time_periods (population_size * (1/100)) []
  { adoption_history := res.1
    final_adoption := res.2 / population_size
    critical_mass_time := critical_mass_search res.1 time_periods 0 }

/-- With `network_value = 0` and a non-negative threshold the regime test
`network_utility > threshold` is false every period, so the run coincides
with the run at threshold `0` (both always take the slow-growth branch). -/
lemma adoption_loop_nv_zero (threshold pop : ℚ) (h : 0 ≤ threshold) :
    ∀ (t : ℕ) (cur : ℚ) (hist : List ℚ),
      adoption_loop threshold 0 pop t cur hist
        = adoption_loop 0 0 pop t cur hist := by
  intro t
  induction t with
  | zero => intro cur hist; rfl
  | succ t ih =>
      intro cur hist
      simp only [adoption_loop, zero_mul]
      rw [if_neg (not_lt.mpr h), if_neg (lt_irrefl 0)]
      by_cases hstop : (99/100) * pop ≤ cur + (1/50) * (pop - cur)
      · rw [if_pos hstop, if_pos hstop]
      · rw [if_neg hstop, if_neg hstop, ih]

set_option maxHeartbeats 4000000 in
set_option maxRecDepth 100000 in
/-- C6 counterexample: the claim says that with `network_value = 0` (and a
non-negative threshold) adoption never reaches 50% within the horizon, i.e.
`critical_mass_time` equals the horizon length. At threshold `1`,
population `1000` and the default horizon of 50 periods, the slow-growth
regime still compounds to 50% adoption at period 34, so
`critical_mass_time = 34`, not 50. -/
theorem C6_counterexample :
    (network_adoption_dynamics 1 0 1000 50).critical_mass_time ≠ 50 := by
  show critical_mass_search (adoption_loop 1 0 1000 50 (1000 * (1/100)) []).1
    50 0 ≠ 50
  rw [adoption_loop_nv_zero 1 1000 (by norm_num)]
  norm_num [adoption_loop, critical_mass_search]

/-- Closed form of the slow-growth run: starting from the trajectory value
`pop * (1 - 0.99 * 0.98^t0)` (the source's adopter count at time `t0`), as
long as the 99% early stop cannot trigger for `T` further periods (the
power hypothesis), the loop records the rates `1 - 0.99 * 0.98^(t0+k)` and
ends at the closed-form adopter count. -/
lemma slow_loop_run (pop : ℚ) (hpop : 0 < pop) :
    ∀ (T t0 : ℕ) (hist : List ℚ),
      (∀ k, k < T → (1:ℚ)/99 < ((49:ℚ)/50)^(t0 + k + 1)) →
      adoption_loop 0 0 pop T (pop * (1 - 99/100 * ((49:ℚ)/50)^t0)) hist
        = (hist ++ (List.range T).map
            (fun k => 1 - 99/100 * ((49:ℚ)/50)^(t0 + k)),
           pop * (1 - 99/100 * ((49:ℚ)/50)^(t0 + T))) := by
  intro T
  induction T with
  | zero =>
      intro t0 hist _
      simp [adoption_loop]
  | succ T ih =>
      intro t0 hist hstop
      have hstop0 := hstop 0 (Nat.succ_pos T)
      simp only [Nat.add_zero] at hstop0
      have hx := mul_lt_mul_of_pos_left hstop0 hpop
      have hnostop : ¬ ((99:ℚ)/100 * pop
          ≤ pop * (1 - 99/100 * ((49:ℚ)/50)^(t0+1))) := by
        intro hcon
        nlinarith [hcon, hx, hpop]
      have hcur2 : pop * (1 - 99/100 * ((49:ℚ)/50)^t0)
          + 1/50 * (pop - pop * (1 - 99/100 * ((49:ℚ)/50)^t0))
          = pop * (1 - 99/100 * ((49:ℚ)/50)^(t0+1)) := by
        rw [pow_succ]; ring
      have hrate : pop * (1 - 99/100 * ((49:ℚ)/50)^t0) / pop
          = 1 - 99/100 * ((49:ℚ)/50)^t0 :=
        mul_div_cancel_left₀ _ hpop.ne'
      simp only [adoption_loop, zero_mul]
      rw [if_neg (lt_irrefl (0:ℚ)), hrate, hcur2, if_neg hnostop]
      have hstop' : ∀ k, k < T →
          (1:ℚ)/99 < ((49:ℚ)/50)^(t0 + 1 + k + 1) := by
        intro k hk
        have h1 := hstop (k+1) (by omega)
        have he : t0 + (k + 1) + 1 = t0 + 1 + k + 1 := by omega
        rwa [he] at h1
      rw [ih (t0+1) (hist ++ [1 - 99/100 * ((49:ℚ)/50)^t0]) hstop']
      have he2 : t0 + 1 + T = t0 + (T + 1) := by omega
      have hlist : [(1:ℚ) - 99/100 * ((49:ℚ)/50)^t0]
            ++ (List.range T).map
              (fun k => 1 - 99/100 * ((49:ℚ)/50)^(t0 + 1 + k))
          = (List.range (T+1)).map
              (fun k => 1 - 99/100 * ((49:ℚ)/50)^(t0 + k)) := by
        rw [List.range_succ_eq_map, List.map_cons, List.map_map,
          List.singleton_append]
        have h1 : (List.range T).map
              (fun k => 1 - 99/100 * ((49:ℚ)/50)^(t0 + 1 + k))
            = (List.range T).map
              ((fun k => 1 - 99/100 * ((49:ℚ)/50)^(t0 + k)) ∘ Nat.succ) := by
          apply List.map_congr_left
          intro k _
          simp only [Function.comp_apply, Nat.succ_eq_add_one]
          have he3 : t0 + 1 + k = t0 + (k + 1) := by omega
          rw [he3]
        rw [h1]
        norm_num
      rw [he2, List.append_assoc, hlist]

/-- For any horizon up to 50 periods, a zero network value and a
non-negative threshold, the adoption run is the closed-form slow-growth
trajectory (the early stop at 99% cannot trigger that soon). -/
lemma adoption_hist_le50 (threshold pop : ℚ) (hth : 0 ≤ threshold)
    (hpop : 0 < pop) (T : ℕ) (hT : T ≤ 50) :
    adoption_loop threshold 0 pop T (pop * (1/100)) []
      = ((List.range T).map (fun k => 1 - 99/100 * ((49:ℚ)/50)^k),
         pop * (1 - 99/100 * ((49:ℚ)/50)^T)) := by
  have hinit : pop * ((1:ℚ)/100)
      = pop * (1 - 99/100 * ((49:ℚ)/50)^(0:ℕ)) := by
    norm_num
  have hstop : ∀ k, k < T → (1:ℚ)/99 < ((49:ℚ)/50)^((0:ℕ) + k + 1) := by
    intro k hk
    have hk1 : k + 1 ≤ 50 := by omega
    have hmono : ((49:ℚ)/50)^(50:ℕ) ≤ ((49:ℚ)/50)^(k+1) :=
      pow_le_pow_of_le_one (by norm_num) (by norm_num) hk1
    have hbig : (1:ℚ)/99 < ((49:ℚ)/50)^(50:ℕ) := by norm_num
    simp only [Nat.zero_add]
    linarith
  rw [adoption_loop_nv_zero threshold pop hth, hinit,
    slow_loop_run pop hpop T 0 [] hstop]
  simp

lemma cms_all_lt (f : ℕ → ℚ) :
    ∀ (T s dflt : ℕ), (∀ j, s ≤ j → j < s + T → f j < 1/2) →
      critical_mass_search ((List.range' s T).map f) dflt s = dflt := by
  intro T
  induction T with
  | zero => intro s dflt _; rfl
  | succ T ih =>
      intro s dflt h
      rw [List.range'_succ, List.map_cons]
      simp only [critical_mass_search]
      rw [if_neg (not_le.mpr (h s le_rfl (by omega)))]
      exact ih (s+1) dflt (fun j h1 h2 => h j (by omega) (by omega))

lemma cms_first_cross (f : ℕ → ℚ) :
    ∀ (T s dflt m : ℕ), s ≤ m → m < s + T →
      (∀ j, s ≤ j → j < m → f j < 1/2) → (1:ℚ)/2 ≤ f m →
      critical_mass_search ((List.range' s T).map f) dflt s = m := by
  intro T
  induction T with
  | zero =>
      intro s dflt m h1 h2 _ _
      exact absurd h2 (by omega)
  | succ T ih =>
      intro s dflt m hsm hmT hlt hge
      rw [List.range'_succ, List.map_cons]
      simp only [critical_mass_search]
      by_cases hems : s = m
      · subst hems
        rw [if_pos hge]
      · have hslt : s < m := by omega
        rw [if_neg (not_le.mpr (hlt s le_rfl hslt))]
        exact ih (s+1) dflt m (by omega) (by omega)
          (fun j hj1 hj2 => hlt j (by omega) hj2) hge

/-- C6 amended: with `network_value = 0`, any non-negative adoption
threshold and any positive population size, every period takes the
slow-growth branch, and adoption first reaches the 50% critical mass at
period 34. Hence at the default 50-period horizon
`critical_mass_time = 34` (critical mass is reached inside the horizon),
while for every horizon of at most 34 periods critical mass is never
reached and `critical_mass_time` equals the horizon. -/
theorem C6_slow_growth_amended (threshold pop : ℚ)
    (hth : 0 ≤ threshold) (hpop : 0 < pop) :
    (network_adoption_dynamics threshold 0 pop 50).critical_mass_time = 34 ∧
    ∀ T : ℕ, T ≤ 34 →
      (network_adoption_dynamics threshold 0 pop T).critical_mass_time = T
      := by
  have hf_lt : ∀ k : ℕ, k < 34 → (1 - 99/100 * ((49:ℚ)/50)^k) < 1/2 := by
    intro k hk
    have hmono : ((49:ℚ)/50)^(33:ℕ) ≤ ((49:ℚ)/50)^k :=
      pow_le_pow_of_le_one (by norm_num) (by norm_num) (by omega)
    have hbig : (50:ℚ)/99 < ((49:ℚ)/50)^(33:ℕ) := by norm_num
    linarith
  have hf34 : (1:ℚ)/2 ≤ 1 - 99/100 * ((49:ℚ)/50)^(34:ℕ) := by
    have h1 : ((49:ℚ)/50)^(34:ℕ) ≤ 50/99 := by norm_num
    linarith
  constructor
  · show critical_mass_search
      (adoption_loop threshold 0 pop 50 (pop * (1/100)) []).1 50 0 = 34
    rw [adoption_hist_le50 threshold pop hth hpop 50 (by norm_num)]
    show critical_mass_search
      ((List.range 50).map (fun k => 1 - 99/100 * ((49:ℚ)/50)^k)) 50 0 = 34
    rw [List.range_eq_range']
    exact cms_first_cross _ 50 0 50 34 (by omega) (by omega)
      (fun j _ hj => hf_lt j hj) hf34
  · intro T hT
    show critical_mass_search
      (adoption_loop threshold 0 pop T (pop * (1/100)) []).1 T 0 = T
    rw [adoption_hist_le50 threshold pop hth hpop T (by omega)]
    show critical_mass_search
      ((List.range T).map (fun k => 1 - 99/100 * ((49:ℚ)/50)^k)) T 0 = T
    rw [List.range_eq_range']
    exact cms_all_lt _ T 0 T (fun j _ hj => hf_lt j (by omega))

/-- Witness for C6 amended at threshold `1`, population `1000`, exercising
both the default horizon and a short horizon `20 ≤ 34`. -/
theorem C6_witness :
    (network_adoption_dynamics 1 0 1000 50).critical_mass_time = 34 ∧
    (network_adoption_dynamics 1 0 1000 20).critical_mass_time = 20 :=
  ⟨(C6_slow_growth_amended 1 1000 (by norm_num) (by norm_num)).1,
   (C6_slow_growth_amended 1 1000 (by norm_num) (by norm_num)).2 20
     (by norm_num)⟩

/-! ### AuctionTheory (src/modules/auction_theory.py) -/

/-- Maximum of a list of rationals, `0` on the empty list (mirrors taking
the maximum of a numpy array; only ever used on nonempty lists). -/
def list_max : List ℚ → ℚ
  | [] => 0
  | x :: xs => xs.foldl max x

/-- Accumulator loop of `np.argmax`: scans the remaining list keeping the
first index attaining the running maximum (strict improvement updates). -/
def np_argmax_go : List ℚ → ℚ → ℕ → ℕ → ℕ
  | [], _, best, _ => best
  | x :: xs, bv, best, k =>
      if bv < x then np_argmax_go xs x k (k+1)
      else np_argmax_go xs bv best (k+1)

/-- Embedding of `np.argmax`: index of the first occurrence of the maximum
(`0` on the empty list). -/
def np_argmax : List ℚ → ℕ
  | [] => 0
  | x :: xs => np_argmax_go xs x 0 1

lemma np_argmax_go_lt (l : List ℚ) :
    ∀ (bv : ℚ) (best k : ℕ), best < k →
      np_argmax_go l bv best k < k + l.length := by
  induction l with
  | nil => intro bv best k hk; simpa [np_argmax_go] using hk
  | cons x xs ih =>
      intro bv best k hk
      simp only [np_argmax_go, List.length_cons]
      by_cases hx : bv < x
      · rw [if_pos hx]
        have := ih x k (k+1) (Nat.lt_succ_self k)
        omega
      · rw [if_neg hx]
        have := ih bv best (k+1) (Nat.lt_succ_of_lt hk)
        omega

lemma np_argmax_lt {l : List ℚ} (h : l ≠ []) : np_argmax l < l.length := by
  cases l with
  | nil => exact absurd rfl h
  | cons x xs =>
      have := np_argmax_go_lt xs x 0 1 Nat.one_pos
      simpa [np_argmax, Nat.add_comm] using this

lemma np_argmax_go_getD (orig : List ℚ) :
    ∀ (rest : List ℚ) (bv : ℚ) (best k : ℕ),
      rest = orig.drop k → orig.getD best 0 = bv →
      orig.getD (np_argmax_go rest bv best k) 0 = rest.foldl max bv := by
  intro rest
  induction rest generalizing orig with
  | nil => intro bv best k _ hbv; simpa [np_argmax_go] using hbv
  | cons x xs ih =>
      intro bv best k hdrop hbv
      have hk : orig.getD k 0 = x := by
        have h0 : orig[k]? = some x := by
          have : (orig.drop k)[0]? = some x := by
            rw [← hdrop]; simp
          simpa using this
        simp [List.getD_eq_getElem?_getD, h0]
      have hxs : xs = orig.drop (k+1) := by
        have hdd : (orig.drop k).drop 1 = orig.drop (k+1) := by
          rw [List.drop_drop, Nat.add_comm]
        rw [← hdd, ← hdrop]
        simp
      simp only [np_argmax_go, List.foldl_cons]
      by_cases hx : bv < x
      · rw [if_pos hx, max_eq_right (le_of_lt hx)]
        exact ih orig x k (k+1) hxs hk
      · rw [if_neg hx, max_eq_left (le_of_not_lt hx)]
        exact ih orig bv best (k+1) hxs hbv

lemma np_argmax_getD {l : List ℚ} (h : l ≠ []) :
    l.getD (np_argmax l) 0 = list_max l := by
  cases l with
  | nil => exact absurd rfl h
  | cons x xs =>
      show (x :: xs).getD (np_argmax_go xs x 0 1) 0 = xs.foldl max x
      exact np_argmax_go_getD (x :: xs) xs x 0 1 rfl rfl

lemma le_foldl_max (l : List ℚ) : ∀ b : ℚ, b ≤ l.foldl max b := by
  induction l with
  | nil => intro b; exact le_refl b
  | cons x xs ih =>
      intro b
      exact le_trans (le_max_left b x) (ih (max b x))

lemma mem_le_foldl_max {l : List ℚ} {a : ℚ} (h : a ∈ l) :
    ∀ b : ℚ, a ≤ l.foldl max b := by
  induction l with
  | nil => exact absurd h (List.not_mem_nil a)
  | cons x xs ih =>
      intro b
      rcases List.mem_cons.mp h with rfl | hxs
      · exact le_trans (le_max_right b a) (le_foldl_max xs (max b a))
      · exact ih hxs (max b x)

lemma le_list_max {l : List ℚ} {a : ℚ} (h : a ∈ l) : a ≤ list_max l := by
  cases l with
  | nil => exact absurd h (List.not_mem_nil a)
  | cons x xs =>
      rcases List.mem_cons.mp h with rfl | hxs
      · exact le_foldl_max xs a
      · exact mem_le_foldl_max hxs x

lemma foldl_max_mem (l : List ℚ) :
    ∀ b : ℚ, l.foldl max b = b ∨ l.foldl max b ∈ l := by
  induction l with
  | nil => intro b; exact Or.inl rfl
  | cons x xs ih =>
      intro b
      rcases ih (max b x) with h | h
      · rcases max_choice b x with hb | hx
        · exact Or.inl (by rw [List.foldl_cons, h, hb])
        · refine Or.inr ?_
          rw [List.foldl_cons, h, hx]
          exact List.mem_cons_self x xs
      · exact Or.inr (List.mem_cons_of_mem x h)

lemma list_max_mem {l : List ℚ} (h : l ≠ []) : list_max l ∈ l := by
  cases l with
  | nil => exact absurd rfl h
  | cons x xs =>
      show xs.foldl max x ∈ x :: xs
      rcases foldl_max_mem xs x with h | h
      · rw [h]; exact List.mem_cons_self x xs
      · exact List.mem_cons_of_mem x h

lemma getD_map_ratfn (f : ℕ → ℚ) :
    ∀ (l : List ℕ) (j : ℕ), j < l.length →
      (l.map f).getD j 0 = f (l.getD j 0) := by
  intro l
  induction l with
  | nil => intro j hj; exact absurd hj (Nat.not_lt_zero j)
  | cons x xs ih =>
      intro j hj
      cases j with
      | zero => rfl
      | succ j =>
          have hj' : j < xs.length := Nat.lt_of_succ_lt_succ hj
          simpa using ih j hj'

lemma getD_mem_of_lt {α : Type} {d : α} : ∀ (l : List α) (j : ℕ),
    j < l.length → l.getD j d ∈ l := by
  intro l
  induction l with
  | nil => intro j hj; exact absurd hj (Nat.not_lt_zero j)
  | cons x xs ih =>
      intro j hj
      cases j with
      | zero => exact List.mem_cons_self x xs
      | succ j =>
          exact List.mem_cons_of_mem x (ih j (Nat.lt_of_succ_lt_succ hj))

/-- Result record of `AuctionTheory.second_price_sealed_bid`. -/
structure SPResult where
  winner : Option ℕ
  winning_bid : ℚ
  payment : ℚ
  revenue : ℚ
  winner_surplus : ℚ
  efficiency : ℚ
deriving DecidableEq

/-- Local `feasible_bidders` of `second_price_sealed_bid`: since bids equal
valuations, the indices whose valuation clears the reserve. -/
def sp_feasible_bidders (valuations : List ℚ) (reserve_price : ℚ) : List ℕ :=
  (List.range valuations.length).filter
    (fun i => reserve_price ≤ valuations.getD i 0)

/-- Local `feasible_bids` of `second_price_sealed_bid`. -/
def sp_feasible_bids (valuations : List ℚ) (reserve_price : ℚ) : List ℚ :=
  (sp_feasible_bidders valuations reserve_price).map
    (fun i => valuations.getD i 0)

/-- Local `winner_idx` of `second_price_sealed_bid`: the feasible bidder at
the first position attaining the highest feasible bid. -/
def sp_winner_idx (valuations : List ℚ) (reserve_price : ℚ) : ℕ :=
  (sp_feasible_bidders valuations reserve_price).getD
    (np_argmax (sp_feasible_bids valuations reserve_price)) 0

/-- Local `payment` of `second_price_sealed_bid`: the second-highest
feasible bid when at least two bidders qualify, otherwise the reserve,
floored at the reserve. -/
def sp_payment (valuations : List ℚ) (reserve_price : ℚ) : ℚ :=
  let fbids := sp_feasible_bids valuations reserve_price
  let payment0 := if 1 < fbids.length
    then list_max (fbids.erase (list_max fbids))
    else reserve_price
  max payment0 reserve_price

/-- Embedding of `AuctionTheory.second_price_sealed_bid`: bids equal
valuations; bidders below the reserve are dropped; with no feasible bidder
a no-winner sentinel with efficiency `0` is returned, otherwise the first
highest feasible bidder wins, pays `sp_payment`, and the efficiency flag is
set to `1`. -/
def second_price_sealed_bid (valuations : List ℚ) (reserve_price : ℚ) :
    SPResult :=
  if sp_feasible_bidders valuations reserve_price = [] then
    { winner := none, winning_bid := 0, payment := 0, revenue := 0,
      winner_surplus := 0, efficiency := 0 }
  else
    let winner_idx := sp_winner_idx valuations reserve_price
    let payment := sp_payment valuations reserve_price
    { winner := some winner_idx
      winning_bid := valuations.getD winner_idx 0
      payment := payment
      revenue := payment
      winner_surplus := valuations.getD winner_idx 0 - payment
      efficiency := 1 }

lemma mem_sp_feasible {valuations : List ℚ} {reserve_price : ℚ} {i : ℕ} :
    i ∈ sp_feasible_bidders valuations reserve_price ↔
      i < valuations.length ∧ reserve_price ≤ valuations.getD i 0 := by
  simp [sp_feasible_bidders, List.mem_filter, List.mem_range]

lemma sp_feasible_ne {valuations : List ℚ} {reserve_price : ℚ}
    (h : ∃ i, i < valuations.length ∧
      reserve_price ≤ valuations.getD i 0) :
    sp_feasible_bidders valuations reserve_price ≠ [] := by
  obtain ⟨i, hi, hr⟩ := h
  intro hemp
  have hmem : i ∈ sp_feasible_bidders valuations reserve_price :=
    mem_sp_feasible.mpr ⟨hi, hr⟩
  rw [hemp] at hmem
  exact List.not_mem_nil i hmem

lemma sp_feasible_bids_ne {valuations : List ℚ} {reserve_price : ℚ}
    (h : sp_feasible_bidders valuations reserve_price ≠ []) :
    sp_feasible_bids valuations reserve_price ≠ [] := by
  intro hemp
  exact h (List.map_eq_nil_iff.mp hemp)

lemma sp_argmax_lt {valuations : List ℚ} {reserve_price : ℚ}
    (h : sp_feasible_bidders valuations reserve_price ≠ []) :
    np_argmax (sp_feasible_bids valuations reserve_price)
      < (sp_feasible_bidders valuations reserve_price).length := by
  have := np_argmax_lt (sp_feasible_bids_ne h)
  rwa [sp_feasible_bids, List.length_map] at this

lemma sp_winner_mem {valuations : List ℚ} {reserve_price : ℚ}
    (h : sp_feasible_bidders valuations reserve_price ≠ []) :
    sp_winner_idx valuations reserve_price
      ∈ sp_feasible_bidders valuations reserve_price :=
  getD_mem_of_lt _ _ (sp_argmax_lt h)

lemma sp_winner_val {valuations : List ℚ} {reserve_price : ℚ}
    (h : sp_feasible_bidders valuations reserve_price ≠ []) :
    valuations.getD (sp_winner_idx valuations reserve_price) 0
      = list_max (sp_feasible_bids valuations reserve_price) := by
  have h1 := np_argmax_getD (sp_feasible_bids_ne h)
  have h2 := getD_map_ratfn (fun i => valuations.getD i 0)
    (sp_feasible_bidders valuations reserve_price)
    (np_argmax (sp_feasible_bids valuations reserve_price))
    (sp_argmax_lt h)
  rw [← sp_feasible_bids] at h2
  simp only at h2
  rw [sp_winner_idx, ← h2]
  exact h1

lemma sp_payment_le {valuations : List ℚ} {reserve_price : ℚ}
    (h : sp_feasible_bidders valuations reserve_price ≠ []) :
    sp_payment valuations reserve_price
      ≤ valuations.getD (sp_winner_idx valuations reserve_price) 0 := by
  have hwv := sp_winner_val h
  have hwmem := sp_winner_mem h
  have hr : reserve_price
      ≤ valuations.getD (sp_winner_idx valuations reserve_price) 0 :=
    (mem_sp_feasible.mp hwmem).2
  rw [sp_payment]
  apply max_le _ hr
  by_cases hlen : 1 < (sp_feasible_bids valuations reserve_price).length
  · rw [if_pos hlen]
    have hMmem : list_max (sp_feasible_bids valuations reserve_price)
        ∈ sp_feasible_bids valuations reserve_price :=
      list_max_mem (sp_feasible_bids_ne h)
    have herase_ne : (sp_feasible_bids valuations reserve_price).erase
        (list_max (sp_feasible_bids valuations reserve_price)) ≠ [] := by
      intro hemp
      have hl := List.length_erase_of_mem hMmem
      rw [hemp] at hl
      simp at hl
      omega
    have hsmem := list_max_mem herase_ne
    have : list_max ((sp_feasible_bids valuations reserve_price).erase
        (list_max (sp_feasible_bids valuations reserve_price)))
        ∈ sp_feasible_bids valuations reserve_price :=
      List.mem_of_mem_erase hsmem
    rw [hwv]
    exact le_list_max this
  · rw [if_neg hlen]
    exact hr

/-- C2 counterexample: the claim quantifies over every reserve price, but
when no valuation clears the reserve the source returns the no-winner
sentinel whose efficiency flag is `0`, not `1`: here valuations `[1]` with
reserve price `2`. -/
theorem C2_counterexample :
    (second_price_sealed_bid [1] 2).efficiency ≠ 1 := by
  have hemp : sp_feasible_bidders [1] 2 = [] := by
    simp [sp_feasible_bidders]
  rw [second_price_sealed_bid, if_pos hemp]
  norm_num

/-- C2 amended: for every valuation vector and reserve price such that at
least one valuation clears the reserve (so a winner is returned), the
second-price result has efficiency flag `1` and the winner is a valid
bidder index attaining the maximum valuation. -/
theorem C2_second_price_efficiency_amended (valuations : List ℚ)
    (reserve_price : ℚ)
    (h : ∃ i, i < valuations.length ∧
      reserve_price ≤ valuations.getD i 0) :
    (second_price_sealed_bid valuations reserve_price).efficiency = 1 ∧
    ∃ w, (second_price_sealed_bid valuations reserve_price).winner = some w ∧
      w < valuations.length ∧
      ∀ i, i < valuations.length →
        valuations.getD i 0 ≤ valuations.getD w 0 := by
  have hne := sp_feasible_ne h
  rw [second_price_sealed_bid, if_neg hne]
  refine ⟨rfl, sp_winner_idx valuations reserve_price, rfl, ?_, ?_⟩
  · exact (mem_sp_feasible.mp (sp_winner_mem hne)).1
  · intro i hi
    rw [sp_winner_val hne]
    by_cases hri : reserve_price ≤ valuations.getD i 0
    · have : valuations.getD i 0 ∈ sp_feasible_bids valuations reserve_price := by
        rw [sp_feasible_bids]
        exact List.mem_map_of_mem _ (mem_sp_feasible.mpr ⟨hi, hri⟩)
      exact le_list_max this
    · obtain ⟨j, hj, hrj⟩ := h
      have hjmem : valuations.getD j 0
          ∈ sp_feasible_bids valuations reserve_price := by
        rw [sp_feasible_bids]
        exact List.mem_map_of_mem _ (mem_sp_feasible.mpr ⟨hj, hrj⟩)
      have := le_list_max hjmem
      have hlt := le_of_not_le hri
      linarith

/-- Witness for C2 amended at valuations `[3, 5]` and reserve price `0`. -/
theorem C2_witness :
    (second_price_sealed_bid [3, 5] 0).efficiency = 1 ∧
    ∃ w, (second_price_sealed_bid [3, 5] 0).winner = some w ∧
      w < ([3, 5] : List ℚ).length ∧
      ∀ i, i < ([3, 5] : List ℚ).length →
        ([3, 5] : List ℚ).getD i 0 ≤ ([3, 5] : List ℚ).getD w 0 :=
  C2_second_price_efficiency_amended [3, 5] 0
    ⟨0, by norm_num, by norm_num⟩

/-- C8: whenever `second_price_sealed_bid` returns a winner, the payment is
at most the winning bidder's own valuation, so the winner's surplus is
non-negative (individual rationality). -/
theorem C8_second_price_individual_rationality (valuations : List ℚ)
    (reserve_price : ℚ) (w : ℕ)
    (hw : (second_price_sealed_bid valuations reserve_price).winner = some w) :
    (second_price_sealed_bid valuations reserve_price).payment
      ≤ valuations.getD w 0 ∧
    0 ≤ (second_price_sealed_bid valuations reserve_price).winner_surplus := by
  by_cases hne : sp_feasible_bidders valuations reserve_price = []
  · rw [second_price_sealed_bid, if_pos hne] at hw
    exact absurd hw (by simp)
  · rw [second_price_sealed_bid, if_neg hne] at hw ⊢
    have hw' : w = sp_winner_idx valuations reserve_price := by
      simpa using hw.symm
    subst hw'
    have := sp_payment_le hne
    exact ⟨this, by simpa using sub_nonneg.mpr this⟩

/-- Witness for C8 at valuations `[3, 5]` and reserve price `0`: the winner
is bidder `1`. -/
theorem C8_witness :
    (second_price_sealed_bid [3, 5] 0).payment ≤ ([3, 5] : List ℚ).getD 1 0 ∧
    0 ≤ (second_price_sealed_bid [3, 5] 0).winner_surplus := by
  refine C8_second_price_individual_rationality [3, 5] 0 1 ?_
  have hne : sp_feasible_bidders [3, 5] 0 ≠ [] := by
    apply sp_feasible_ne
    exact ⟨0, by norm_num, by norm_num⟩
  rw [second_price_sealed_bid, if_neg hne]
  have : sp_winner_idx [3, 5] 0 = 1 := by
    have hfeas : sp_feasible_bidders [3, 5] 0 = [0, 1] := by
      simp [sp_feasible_bidders, List.range_succ]
    rw [sp_winner_idx, hfeas, sp_feasible_bids, hfeas]
    norm_num [np_argmax, np_argmax_go]
  simp [this]

/-- Result record of `AuctionTheory.english_auction` (the no-winner
sentinels of the source carry no payment key; `payment := 0` there). -/
structure EnglishResult where
  winner : Option ℕ
  winning_bid : ℚ
  payment : ℚ
  revenue : ℚ
  winner_surplus : ℚ
  efficiency : ℚ
  final_price : ℚ
deriving DecidableEq

/-- Embedding of the `while len(active_bidders) > 1` loop of
`english_auction`: each round removes the bidders whose valuation is below
`price + increment` and raises the price by `increment`. The loop of the
source has no bound; `fuel` counts loop iterations still allowed, and
`none` models non-termination within that budget. -/
def english_loop (valuations : List ℚ) (increment : ℚ) :
    ℕ → List ℕ → ℚ → Option (List ℕ × ℚ)
  | fuel, active, price =>
    if active.length ≤ 1 then some (active, price)
    else
      match fuel with
      | 0 => none
      | Nat.succ f =>
          english_loop valuations increment f
            (active.filter (fun i => price + increment ≤ valuations.getD i 0))
            (price + increment)

/-- Embedding of `AuctionTheory.english_auction`: bidders below the reserve
never participate; the ascending-price loop runs until at most one bidder
remains; an empty final set yields the no-winner sentinel, otherwise the
first remaining bidder wins and pays about the second-highest feasible
valuation plus one increment. -/
def english_auction (valuations : List ℚ) (reserve_price increment : ℚ)
    (fuel : ℕ) : Option EnglishResult :=
  let active0 := (List.range valuations.length).filter
    (fun i => reserve_price ≤ valuations.getD i 0)
  if active0.length = 0 then
    some { winner := none, winning_bid := 0, payment := 0, revenue := 0,
           winner_surplus := 0, efficiency := 0,
           final_price := reserve_price }
  else
    match english_loop valuations increment fuel active0 reserve_price with
    | none => none
    | some (active, price) =>
      if active.length = 0 then
        some { winner := none, winning_bid := 0, payment := 0, revenue := 0,
               winner_surplus := 0, efficiency := 0, final_price := price }
      else
        let winner_idx := active.getD 0 0
        let sorted := (valuations.filter
          (fun v => reserve_price ≤ v)).mergeSort (fun a c => a ≤ c)
        let payment := if 1 < sorted.length
          then sorted.getD (sorted.length - 2) 0 + increment
          else reserve_price
        some { winner := some winner_idx
               winning_bid := valuations.getD winner_idx 0
               payment := payment
               revenue := payment
               winner_surplus := valuations.getD winner_idx 0 - payment
               efficiency := 1
               final_price := payment }

lemma english_loop_isSome {valuations : List ℚ} {increment : ℚ}
    (hinc : 0 < increment) :
    ∀ (fuel : ℕ) (active : List ℕ) (price : ℚ),
      (∀ i ∈ active, valuations.getD i 0 < price + fuel * increment) →
      (english_loop valuations increment (fuel + 1) active price).isSome := by
  intro fuel
  induction fuel with
  | zero =>
      intro active price hbound
      rw [english_loop]
      by_cases hlen : active.length ≤ 1
      · rw [if_pos hlen]; rfl
      · rw [if_neg hlen]
        have hfe : active.filter
            (fun i => price + increment ≤ valuations.getD i 0) = [] := by
          apply List.filter_eq_nil.mpr
          intro i hi
          have := hbound i hi
          simp only [Nat.cast_zero, zero_mul, add_zero] at this
          simp only [decide_eq_true_eq]
          intro hcon
          linarith
        rw [hfe, english_loop]
        rw [if_pos (by simp)]
        rfl
  | succ f ih =>
      intro active price hbound
      rw [english_loop]
      by_cases hlen : active.length ≤ 1
      · rw [if_pos hlen]; rfl
      · rw [if_neg hlen]
        apply ih
        intro i hi
        have hia : i ∈ active := List.mem_of_mem_filter hi
        have := hbound i hia
        push_cast at this ⊢
        linarith

/-- C9: for every valuation vector, reserve price and positive increment,
the ascending-price loop of `english_auction` terminates: some finite fuel
makes the whole simulation return a result. -/
theorem C9_english_auction_terminates (valuations : List ℚ)
    (reserve_price increment : ℚ) (hinc : 0 < increment) :
    ∃ fuel, (english_auction valuations reserve_price increment fuel).isSome
      := by
  by_cases h0 : ((List.range valuations.length).filter
      (fun i => reserve_price ≤ valuations.getD i 0)).length = 0
  · exact ⟨0, by rw [english_auction, if_pos h0]; rfl⟩
  · obtain ⟨n, hn⟩ :=
      exists_nat_gt ((list_max valuations - reserve_price) / increment)
    have hbound : ∀ i ∈ (List.range valuations.length).filter
        (fun i => reserve_price ≤ valuations.getD i 0),
        valuations.getD i 0 < reserve_price + n * increment := by
      intro i hi
      have hil : i < valuations.length :=
        List.mem_range.mp (List.mem_of_mem_filter hi)
      have hmem : valuations.getD i 0 ∈ valuations := getD_mem_of_lt _ _ hil
      have h1 : valuations.getD i 0 ≤ list_max valuations := le_list_max hmem
      have h2 : list_max valuations - reserve_price < n * increment :=
        (div_lt_iff hinc).mp hn
      linarith
    have hsome := english_loop_isSome hinc n _ reserve_price hbound
    obtain ⟨res, hres⟩ := Option.isSome_iff_exists.mp hsome
    refine ⟨n + 1, ?_⟩
    rw [english_auction, if_neg h0, hres]
    obtain ⟨active, price⟩ := res
    by_cases hl : active.length = 0 <;> simp [hl]

/-- Witness for C9 at valuations `[3, 5]`, reserve `0`, increment `1`. -/
theorem C9_witness :
    ∃ fuel, (english_auction [3, 5] 0 1 fuel).isSome :=
  C9_english_auction_terminates [3, 5] 0 1 (by norm_num)

lemma two_mem_le_length {α : Type} {l : List α} {a b : α}
    (ha : a ∈ l) (hb : b ∈ l) (hab : a ≠ b) : 2 ≤ l.length := by
  induction l with
  | nil => exact absurd ha (List.not_mem_nil a)
  | cons x xs ih =>
      rcases List.mem_cons.mp ha with rfl | ha'
      · have hb' : b ∈ xs := by
          rcases List.mem_cons.mp hb with rfl | hb'
          · exact absurd rfl hab
          · exact hb'
        have := List.length_pos_of_mem hb'
        simp only [List.length_cons]
        omega
      · have := List.length_pos_of_mem ha'
        simp only [List.length_cons]
        omega

lemma english_loop_tie_empty {valuations : List ℚ} {increment M : ℚ}
    {a b : ℕ} (hinc : 0 < increment) (hab : a ≠ b)
    (hva : valuations.getD a 0 = M) (hvb : valuations.getD b 0 = M) :
    ∀ (fuel : ℕ) (active : List ℕ) (price : ℚ),
      (∀ i ∈ active, valuations.getD i 0 ≤ M) →
      a ∈ active → b ∈ active →
      M < price + (fuel + 1) * increment →
      ∃ p, english_loop valuations increment (fuel + 1) active price
        = some ([], p) := by
  intro fuel
  induction fuel with
  | zero =>
      intro active price hbound hai hbi hM
      have hlen : ¬ active.length ≤ 1 := by
        have := two_mem_le_length hai hbi hab
        omega
      rw [english_loop, if_neg hlen]
      have hfe : active.filter
          (fun i => price + increment ≤ valuations.getD i 0) = [] := by
        apply List.filter_eq_nil.mpr
        intro i hi
        have h1 := hbound i hi
        simp only [Nat.cast_zero] at hM
        simp only [decide_eq_true_eq]
        intro hcon
        linarith
      rw [hfe, english_loop, if_pos (by simp)]
      exact ⟨price + increment, rfl⟩
  | succ f ih =>
      intro active price hbound hai hbi hM
      have hlen : ¬ active.length ≤ 1 := by
        have := two_mem_le_length hai hbi hab
        omega
      rw [english_loop, if_neg hlen]
      by_cases hstay : price + increment ≤ M
      · apply ih
        · intro i hi
          exact hbound i (List.mem_of_mem_filter hi)
        · apply List.mem_filter.mpr
          refine ⟨hai, ?_⟩
          simp only [decide_eq_true_eq]
          rw [hva]; exact hstay
        · apply List.mem_filter.mpr
          refine ⟨hbi, ?_⟩
          simp only [decide_eq_true_eq]
          rw [hvb]; exact hstay
        · push_cast at hM ⊢
          linarith
      · have hfe : active.filter
            (fun i => price + increment ≤ valuations.getD i 0) = [] := by
          apply List.filter_eq_nil.mpr
          intro i hi
          have h1 := hbound i hi
          simp only [decide_eq_true_eq]
          intro hcon
          have := le_of_not_le hstay
          linarith
        rw [hfe, english_loop, if_pos (by simp)]
        exact ⟨price + increment, rfl⟩

/-- C10: when the maximum valuation clears the reserve and is attained by
two or more bidders, the ascending-price loop eliminates all of them in
the same round and `english_auction` returns the no-winner sentinel
(winner `none`, revenue `0`, efficiency `0`), although several bidders
clear the reserve. -/
theorem C10_english_tie_no_winner (valuations : List ℚ)
    (reserve_price increment : ℚ) (a b : ℕ)
    (hinc : 0 < increment) (hab : a ≠ b)
    (ha : a < valuations.length) (hb : b < valuations.length)
    (hvb : valuations.getD b 0 = valuations.getD a 0)
    (hmax : ∀ i, i < valuations.length →
      valuations.getD i 0 ≤ valuations.getD a 0)
    (hr : reserve_price ≤ valuations.getD a 0) :
    ∃ fuel res, english_auction valuations reserve_price increment fuel
        = some res ∧
      res.winner = none ∧ res.revenue = 0 ∧ res.efficiency = 0 := by
  have hamem : a ∈ (List.range valuations.length).filter
      (fun i => reserve_price ≤ valuations.getD i 0) :=
    List.mem_filter.mpr ⟨List.mem_range.mpr ha, by
      simp only [decide_eq_true_eq]; exact hr⟩
  have hbmem : b ∈ (List.range valuations.length).filter
      (fun i => reserve_price ≤ valuations.getD i 0) :=
    List.mem_filter.mpr ⟨List.mem_range.mpr hb, by
      simp only [decide_eq_true_eq]; rw [hvb]; exact hr⟩
  have h0 : ¬ ((List.range valuations.length).filter
      (fun i => reserve_price ≤ valuations.getD i 0)).length = 0 := by
    have := List.length_pos_of_mem hamem
    omega
  obtain ⟨n, hn⟩ := exists_nat_gt
    ((valuations.getD a 0 - reserve_price) / increment)
  have hM : valuations.getD a 0 < reserve_price + (n + 1) * increment := by
    have h2 : valuations.getD a 0 - reserve_price < n * increment :=
      (div_lt_iff hinc).mp hn
    push_cast
    nlinarith
  have hbound : ∀ i ∈ (List.range valuations.length).filter
      (fun i => reserve_price ≤ valuations.getD i 0),
      valuations.getD i 0 ≤ valuations.getD a 0 := by
    intro i hi
    exact hmax i (List.mem_range.mp (List.mem_of_mem_filter hi))
  obtain ⟨p, hp⟩ := english_loop_tie_empty hinc hab rfl hvb n _
    reserve_price hbound hamem hbmem hM
  refine ⟨n + 1,
    { winner := none, winning_bid := 0, payment := 0, revenue := 0,
      winner_surplus := 0, efficiency := 0, final_price := p },
    ?_, rfl, rfl, rfl⟩
  rw [english_auction, if_neg h0, hp]
  rfl

/-- Witness for C10 at valuations `[5, 5]`, reserve `0`, increment `1`. -/
theorem C10_witness :
    ∃ fuel res, english_auction [5, 5] 0 1 fuel = some res ∧
      res.winner = none ∧ res.revenue = 0 ∧ res.efficiency = 0 := by
  refine C10_english_tie_no_winner [5, 5] 0 1 0 1 (by norm_num)
    (by norm_num) (by norm_num) (by norm_num) (by norm_num) ?_ (by norm_num)
  intro i hi
  have hi2 : i < 2 := by simpa using hi
  interval_cases i <;> norm_num

/-! ### GameTheory (src/modules/game_theory.py) -/

/-- Indexing `payoff_matrix[i][j]` of the source. -/
def payoff_entry (m : List (List ℚ)) (i j : ℕ) : ℚ :=
  (m.getD i []).getD j 0

/-- Embedding of `GameTheory.find_nash_equilibria`: a cell `(i, j)` is kept
iff no row deviation strictly improves player 1's payoff `p1[i][j]` and no
column deviation strictly improves player 2's payoff `p2[i][j]` (note the
source reads player 2's payoff in cell `(i, j)` as `p2[i][j]`). -/
def find_nash_equilibria (p1 p2 : List (List ℚ)) (s1 s2 : List String) :
    List (String × String) :=
  (List.range s1.length).bind (fun i =>
    (List.range s2.length).filterMap (fun j =>
      if ((List.range s1.length).all
            (fun k => payoff_entry p1 k j ≤ payoff_entry p1 i j))
          && ((List.range s2.length).all
            (fun l => payoff_entry p2 i l ≤ payoff_entry p2 i j))
      then some (s1.getD i "", s2.getD j "")
      else none))

/-- Embedding of the equilibrium search of `GameTheory.prisoners_dilemma`:
the same payoff matrix is passed for both players (without transposing it
for the column player) over strategies Cooperate/Defect. -/
def prisoners_dilemma_equilibria (payoff_matrix : List (List ℚ)) :
    List (String × String) :=
  find_nash_equilibria payoff_matrix payoff_matrix
    ["Cooperate", "Defect"] ["Cooperate", "Defect"]

/-- C1: the claim says the Nash search invoked by `prisoners_dilemma` on the
standard matrix `[[3,0],[5,1]]` returns exactly `(Defect, Defect)`. The
source passes the symmetric matrix untransposed as player 2's payoffs, so
the cell it finds is `(Defect, Cooperate)` instead: in cell `(1,0)` it reads
player 2's payoff as `5` (the row player's defection payoff), which no
column deviation beats. -/
theorem C1_prisoners_dilemma_buggy_equilibrium :
    prisoners_dilemma_equilibria [[3, 0], [5, 1]]
      = [("Defect", "Cooperate")] := by
  norm_num [prisoners_dilemma_equilibria, find_nash_equilibria,
    payoff_entry, List.range_succ, List.filterMap_cons]

/-- Result record of `GameTheory.repeated_game_simulation`. Actions are
`0` (cooperate) and `1` (defect). -/
structure RepeatedGameResult where
  history_p1 : List ℕ
  history_p2 : List ℕ
  payoffs_p1 : List ℚ
  payoffs_p2 : List ℚ
  total_payoff_p1 : ℚ
  total_payoff_p2 : ℚ
  cooperation_rate_p1 : ℚ
  cooperation_rate_p2 : ℚ

/-- Round loop of `repeated_game_simulation`: records the current actions
and payoffs (`payoff[a1][a2]` for player 1, `payoff[a2][a1]` for player 2),
then, except in the last round, updates player 1's action first and lets a
tit-for-tat player 2 read the already-updated `action_p1` of the source. -/
def repeated_game_loop (payoff : List (List ℚ)) (s1 s2 : String) :
    ℕ → ℕ → ℕ → (List ℕ × List ℕ × List ℚ × List ℚ)
  | 0, _, _ => ([], [], [], [])
  | Nat.succ r, a1, a2 =>
      let pay1 := payoff_entry payoff a1 a2
      let pay2 := payoff_entry payoff a2 a1
      let next1 := if s1 = "tit_for_tat" then a2
        else if s1 = "always_cooperate" then 0 else 1
      let next2 := if s2 = "tit_for_tat" then next1
        else if s2 = "always_cooperate" then 0 else 1
      let nxt := if r = 0 then (a1, a2) else (next1, next2)
      let rest := repeated_game_loop payoff s1 s2 r nxt.1 nxt.2
      (a1 :: rest.1, a2 :: rest.2.1, pay1 :: rest.2.2.1, pay2 :: rest.2.2.2)

/-- Embedding of `GameTheory.repeated_game_simulation`: the first-round
actions come from the source's initialization (player 1 cooperates only
under `tit_for_tat`; player 2 cooperates only under `always_cooperate`),
then `repeated_game_loop` plays the remaining rounds. -/
def repeated_game_simulation (payoff : List (List ℚ)) (n_rounds : ℕ)
    (strategy_p1 strategy_p2 : String) : RepeatedGameResult :=
  let a1 : ℕ := if strategy_p1 = "tit_for_tat" then 0 else 1
  let a2 : ℕ := if strategy_p2 = "always_cooperate" then 0 else 1
  let res := repeated_game_loop payoff strategy_p1 strategy_p2 n_rounds a1 a2
  { history_p1 := res.1
    history_p2 := res.2.1
    payoffs_p1 := res.2.2.1
    payoffs_p2 := res.2.2.2
    total_payoff_p1 := res.2.2.1.sum
    total_payoff_p2 := res.2.2.2.sum
    cooperation_rate_p1 := (res.1.count 0 : ℚ) / res.1.length
    cooperation_rate_p2 := (res.2.1.count 0 : ℚ) / res.2.1.length }

/-- C3: the claim says each player's action is determined by its named
strategy (always_cooperate constant at cooperate; tit_for_tat cooperating
first and then copying the opponent's previous action). On the source, with
`strategy_p1 = always_cooperate` and `strategy_p2 = tit_for_tat` over two
rounds, player 1 defects in round 1 (the initialization only lets
`tit_for_tat` cooperate), and player 2's tit-for-tat defects in round 1 and
then copies player 1's round-2 action instead of its round-1 action: the
histories are `[1, 0]` and `[1, 0]` where the claim requires `[0, 0]` and
`[0, 0]`. -/
theorem C3_repeated_game_first_round_bug :
    (repeated_game_simulation [[3, 0], [5, 1]] 2
        "always_cooperate" "tit_for_tat").history_p1 = [1, 0] ∧
    (repeated_game_simulation [[3, 0], [5, 1]] 2
        "always_cooperate" "tit_for_tat").history_p2 = [1, 0] := by
  constructor <;>
    norm_num [repeated_game_simulation, repeated_game_loop, payoff_entry] <;>
    simp

end IOEcon
